import Mathlib

/-!
# Verification of the EvmIL core: disassembler and IL compiler

A shallow embedding of the two core subsystems of the EvmIL crate:

* the bytecode disassembly / abstract-interpretation engine
  (`src/analysis/disassembler.rs`), and
* the IL-to-bytecode compiler (`src/il/compiler.rs`).

Bytes are modelled as `Nat` (values < 256 in real buffers), machine
integers as `Nat` with explicit reduction `% 2^128` where the source uses
`u128`.  Rust panics (`unreachable!`, `assert!`, out-of-bounds indexing)
are modelled by `Option`/dedicated result constructors.
-/

namespace EvmIL

-- ============================================================================
-- Instructions (the `ll` module's instruction model)
-- ============================================================================

/-- Modelled from the spec: the external instruction/label model (spec section 2:
"an opcode variant type including unconditional/conditional jumps, jump targets
(raw or symbolic), stack ops, memory/storage ops, and terminators").  The
constructors are exactly those referenced from the two core source files:
`STOP`, `ADD`, `MUL`, `SUB`, `DIV`, `MOD`, `LT`, `GT`, `EQ`, `ISZERO`,
`CALLDATALOAD`, `POP`, `MLOAD`, `MSTORE`, `SLOAD`, `SSTORE`, `JUMP`, `JUMPI`,
`JUMPDEST`, `PUSH`, `PUSHL`, `DUP`, `RETURN`, `REVERT`, `INVALID`, `DATA`,
plus a catch-all for opcodes the core never inspects. -/
inductive Instruction where
  | STOP
  | ADD
  | MUL
  | SUB
  | DIV
  | MOD
  | LT
  | GT
  | EQ
  | ISZERO
  | CALLDATALOAD
  | POP
  | MLOAD
  | MSTORE
  | SLOAD
  | SSTORE
  | JUMP
  | JUMPI
  | JUMPDEST (lab : Nat)
  | PUSH (bytes : List Nat)
  | PUSHL (lab : Nat)
  | DUP (n : Nat)
  | RETURN
  | REVERT
  | INVALID
  | DATA (bytes : List Nat)
  | UNKNOWN (op : Nat)
deriving Repr, DecidableEq

/-- Modelled from the spec: the single-byte part of the external instruction
decoder — the opcode table for instructions with no operand bytes.
`JUMPDEST` records its own offset. -/
def decodeOne (op pc : Nat) : Instruction :=
  match op with
  | 0x00 => Instruction.STOP
  | 0x01 => Instruction.ADD
  | 0x02 => Instruction.MUL
  | 0x03 => Instruction.SUB
  | 0x04 => Instruction.DIV
  | 0x06 => Instruction.MOD
  | 0x10 => Instruction.LT
  | 0x11 => Instruction.GT
  | 0x14 => Instruction.EQ
  | 0x15 => Instruction.ISZERO
  | 0x35 => Instruction.CALLDATALOAD
  | 0x50 => Instruction.POP
  | 0x51 => Instruction.MLOAD
  | 0x52 => Instruction.MSTORE
  | 0x54 => Instruction.SLOAD
  | 0x55 => Instruction.SSTORE
  | 0x56 => Instruction.JUMP
  | 0x57 => Instruction.JUMPI
  | 0x5b => Instruction.JUMPDEST pc
  | 0xf3 => Instruction.RETURN
  | 0xfd => Instruction.REVERT
  | 0xfe => Instruction.INVALID
  | _ => if 0x80 ≤ op ∧ op ≤ 0x8f then Instruction.DUP (op - 0x7f)
         else Instruction.UNKNOWN op

/-- Modelled from the spec: `Instruction::decode(offset, bytes)` of the external
`ll` module (spec section 6: "decode(offset, bytes) -> (instruction,
length_in_bytes), must never need more lookahead than instruction length").
A `PUSHk` opcode (`0x60..0x7f`) carries the next `k` bytes as its operand,
truncated at the end of the buffer so that no lookahead past the buffer is
needed; every other opcode decodes to a one-byte instruction. -/
def Instruction.decode (pc : Nat) (bytes : List Nat) : Instruction :=
  let op := bytes.getD pc 0
  if 0x60 ≤ op ∧ op ≤ 0x7f then
    Instruction.PUSH ((bytes.drop (pc + 1)).take (op - 0x5f))
  else decodeOne op pc

/-- Modelled from the spec: `Instruction::length` of the external `ll` module
(the byte length of one instruction; a `PUSH` occupies one opcode byte plus
its operand bytes, a `DATA` pseudo-instruction spans its payload, everything
else is a single byte; the symbolic `PUSHL` never occurs in decoded bytecode). -/
def Instruction.length : Instruction → Nat
  | Instruction.PUSH bs => 1 + bs.length
  | Instruction.DATA bs => bs.length
  | Instruction.PUSHL _ => 2
  | _ => 1

theorem decodeOne_length (op pc : Nat) : (decodeOne op pc).length = 1 := by
  unfold decodeOne
  split
  all_goals try rfl
  split <;> rfl

theorem decode_length_pos (pc : Nat) (bytes : List Nat) :
    0 < (Instruction.decode pc bytes).length := by
  unfold Instruction.decode
  dsimp only
  split
  · simp [Instruction.length]
  · simp [decodeOne_length]

theorem decode_length_le (pc : Nat) (bytes : List Nat) (h : pc < bytes.length) :
    pc + (Instruction.decode pc bytes).length ≤ bytes.length := by
  unfold Instruction.decode
  dsimp only
  split
  · simp only [Instruction.length, List.length_take, List.length_drop]
    omega
  · simp only [decodeOne_length]
    omega

-- ============================================================================
-- Blocks (`Block` in src/analysis/disassembler.rs)
-- ============================================================================

/-- `Block`: a sequential block of instructions, identified by its half-open
byte-offset range.  The source's field `end` is spelled `endp` here because
`end` is a reserved word in Lean. -/
structure Block where
  start : Nat
  endp : Nat
deriving Repr, DecidableEq

/-- `Block::encloses`: whether this block includes the given bytecode address. -/
def Block.encloses (b : Block) (pc : Nat) : Bool :=
  decide (b.start ≤ pc) && decide (pc < b.endp)

/-- The loop body of `Disassembly::scan_blocks`, written as a recursion that
returns the blocks still to be emitted from the current loop state
(`pc` = current position, `start` = start of the current block).  The
source's `Block::new` assertion `start < end` is established for every
constructed block by `scanLoop_chained` below. -/
def scanLoop (bytes : List Nat) (pc start : Nat) : List Block :=
  if h : pc < bytes.length then
    let insn := Instruction.decode pc bytes
    let pc' := pc + insn.length
    match insn with
    | Instruction.JUMPDEST _ =>
        if pc' - 1 ≠ start then
          Block.mk start (pc' - 1) :: scanLoop bytes pc' (pc' - 1)
        else
          scanLoop bytes pc' start
    | Instruction.INVALID | Instruction.JUMP | Instruction.RETURN
    | Instruction.REVERT | Instruction.STOP =>
        Block.mk start pc' :: scanLoop bytes pc' pc'
    | _ => scanLoop bytes pc' start
  else
    if start ≠ pc then [Block.mk start pc] else []
termination_by bytes.length - pc
decreasing_by
  all_goals
    have := decode_length_pos pc bytes
    omega

/-- `Disassembly::scan_blocks`: linear scan splitting the bytecode into blocks. -/
def scan_blocks (bytes : List Nat) : List Block :=
  scanLoop bytes 0 0

/-- `Chained a b blks`: the blocks tile the half-open range `[a, b)` exactly —
each block is non-empty (`start < endp`, the `Block::new` invariant), the
first starts at `a`, each block's `endp` is the next block's `start`, and the
last ends at `b`.  This packages sortedness, disjointness and contiguity. -/
def Chained : Nat → Nat → List Block → Prop
  | a, b, [] => a = b
  | a, b, blk :: rest => blk.start = a ∧ a < blk.endp ∧ Chained blk.endp b rest

theorem chained_le {a b : Nat} {blks : List Block} (h : Chained a b blks) : a ≤ b := by
  induction blks generalizing a with
  | nil => exact le_of_eq h
  | cons hd tl ih =>
      obtain ⟨h1, h2, h3⟩ := h
      have := ih h3
      omega

theorem chained_mem_bounds {a b : Nat} {blks : List Block} (h : Chained a b blks) :
    ∀ blk ∈ blks, a ≤ blk.start ∧ blk.start < blk.endp ∧ blk.endp ≤ b := by
  induction blks generalizing a with
  | nil => intro blk hblk; cases hblk
  | cons hd tl ih =>
      obtain ⟨h1, h2, h3⟩ := h
      intro blk hblk
      have hle := chained_le h3
      rcases List.mem_cons.mp hblk with rfl | hblk
      · exact ⟨by omega, by omega, by omega⟩
      · have := ih h3 blk hblk
        omega

theorem chained_coverage {a b : Nat} {blks : List Block} (h : Chained a b blks) :
    ∀ i, (a ≤ i ∧ i < b) ↔ ∃ blk ∈ blks, blk.start ≤ i ∧ i < blk.endp := by
  induction blks generalizing a with
  | nil =>
      intro i
      subst h
      constructor
      · omega
      · rintro ⟨blk, hblk, -⟩; cases hblk
  | cons hd tl ih =>
      obtain ⟨h1, h2, h3⟩ := h
      intro i
      have hle := chained_le h3
      constructor
      · intro hi
        by_cases hcase : i < hd.endp
        · exact ⟨hd, List.mem_cons_self _ _, by omega⟩
        · obtain ⟨blk, hblk, hb⟩ := ((ih h3) i).mp (by omega)
          exact ⟨blk, List.mem_cons_of_mem _ hblk, hb⟩
      · rintro ⟨blk, hblk, hb⟩
        rcases List.mem_cons.mp hblk with rfl | hblk
        · omega
        · have := chained_mem_bounds h3 blk hblk
          omega

theorem chained_pairwise {a b : Nat} {blks : List Block} (h : Chained a b blks) :
    List.Pairwise (fun x y => x.endp ≤ y.start) blks := by
  induction blks generalizing a with
  | nil => exact List.Pairwise.nil
  | cons hd tl ih =>
      obtain ⟨h1, h2, h3⟩ := h
      refine List.Pairwise.cons ?_ (ih h3)
      intro blk hblk
      exact (chained_mem_bounds h3 blk hblk).1

theorem chained_cons {s e b : Nat} {rest : List Block} (h1 : s < e)
    (h2 : Chained e b rest) : Chained s b (Block.mk s e :: rest) :=
  ⟨rfl, h1, h2⟩

theorem chained_nil {a : Nat} : Chained a a ([] : List Block) := rfl

theorem scanLoop_chained (bytes : List Nat) (pc start : Nat)
    (h1 : start ≤ pc) (h2 : pc ≤ bytes.length) :
    Chained start bytes.length (scanLoop bytes pc start) := by
  rw [scanLoop]
  by_cases h : pc < bytes.length
  · simp only [dif_pos h]
    have hlp := decode_length_pos pc bytes
    have hll := decode_length_le pc bytes h
    split
    · -- JUMPDEST
      split
      · exact chained_cons (by omega)
          (scanLoop_chained bytes _ _ (by omega) (by omega))
      · exact scanLoop_chained bytes _ _ (by omega) (by omega)
    all_goals first
      | exact chained_cons (by omega)
          (scanLoop_chained bytes _ _ (by omega) (by omega))
      | exact scanLoop_chained bytes _ _ (by omega) (by omega)
  · simp only [dif_neg h]
    have hpc : pc = bytes.length := by omega
    subst hpc
    split
    · exact chained_cons (by omega) chained_nil
    · simp only [Chained]
      omega
termination_by bytes.length - pc
decreasing_by
  all_goals
    have := decode_length_pos pc bytes
    omega

-- ============================================================================
-- Abstract state (the `AbstractState` trait)
-- ============================================================================

/-- `AbstractValue` from the analysis module (spec section 3): "is the top of
stack a statically known constant, and if so what is it". -/
inductive AbstractValue where
  | Known (n : Nat)
  | Unknown
deriving Repr, DecidableEq

def AbstractValue.is_known : AbstractValue → Bool
  | AbstractValue.Known _ => true
  | AbstractValue.Unknown => false

/-- `unwrap` of an abstract value.  The engine only calls it under an
`is_known` guard, so the `Unknown` branch (a panic in the source) is never
reached. -/
def AbstractValue.unwrap : AbstractValue → Nat
  | AbstractValue.Known n => n
  | AbstractValue.Unknown => 0

/-- The `AbstractState` trait: the capability record a dataflow domain
implements — `is_reachable`, `transfer`, `branch`, `merge`, `peek`, `bottom`,
`origin`.  The source's `merge(&mut self, other) -> bool` mutates in place and
returns the changed flag; here it returns the merged state paired with the
flag. -/
structure AbstractStateOps (T : Type) where
  is_reachable : T → Bool
  transfer : T → Instruction → T
  branch : T → Nat → Instruction → T
  merge : T → T → T × Bool
  peek : T → Nat → AbstractValue
  bottom : T
  origin : T

/-- The no-op unit domain `impl AbstractState for ()`: everything reachable,
transfer/branch do nothing, merge never changes anything, peek is unknown. -/
def unitOps : AbstractStateOps Unit where
  is_reachable _ := true
  transfer s _ := s
  branch s _ _ := s
  merge s _ := (s, false)
  peek _ _ := AbstractValue.Unknown
  bottom := ()
  origin := ()

-- ============================================================================
-- Disassembly (struct `Disassembly<'a,T>`)
-- ============================================================================

/-- `Disassembly<'a,T>`: the bytes being disassembled, the known blocks (in
order), and the incoming context for each block. -/
structure Disassembly (T : Type) where
  bytes : List Nat
  blocks : List Block
  contexts : List T
deriving Repr

/-- `Disassembly::new`: scan the blocks, build one `bottom` context per block,
then overwrite `contexts[0]` with `origin`.  That write is an unconditional
index into the context vector, so it panics — modelled as `none` — when the
scan produced no blocks (i.e. on empty bytecode). -/
def Disassembly.new {T : Type} (ops : AbstractStateOps T) (bytes : List Nat) :
    Option (Disassembly T) :=
  let blocks := scan_blocks bytes
  let contexts := List.replicate blocks.length ops.bottom
  if contexts.length = 0 then none
  else some { bytes := bytes, blocks := blocks, contexts := contexts.set 0 ops.origin }

/-- `Disassembly::read_bytes`: read the byte range `[start, end)`, "padding
with zeros as necessary" (source doc).  The middle branch mirrors the source
exactly: its padding loop is `for _i in end..n`, a range that is empty in the
very branch where `end > n`, so it appends `n - end = 0` zeros. -/
def Disassembly.read_bytes {T : Type} (d : Disassembly T) (start endp : Nat) : List Nat :=
  let n := d.bytes.length
  if start ≥ n then
    List.replicate (endp - start) 0
  else if endp > n then
    (d.bytes.drop start).take (n - start) ++ List.replicate (n - endp) 0
  else
    (d.bytes.drop start).take (endp - start)

/-- The loop of `get_enclosing_block_id`: first block (in order) enclosing the
address, `none` when no block does (a panic in the source). -/
def findEnclosing : List Block → Nat → Nat → Option Nat
  | [], _, _ => none
  | b :: rest, pc, i => if b.encloses pc then some i else findEnclosing rest pc (i + 1)

/-- `Disassembly::get_enclosing_block_id`. -/
def Disassembly.get_enclosing_block_id {T : Type} (d : Disassembly T) (pc : Nat) :
    Option Nat :=
  findEnclosing d.blocks pc 0

/-- The `while pc < loc` replay loop of `Disassembly::get_state`. -/
def stateLoop {T : Type} (ops : AbstractStateOps T) (bytes : List Nat) (ctx : T)
    (pc loc : Nat) : T :=
  if pc < loc then
    let insn := Instruction.decode pc bytes
    stateLoop ops bytes (ops.transfer ctx insn) (pc + insn.length) loc
  else ctx
termination_by loc - pc
decreasing_by
  all_goals
    have := decode_length_pos pc bytes
    omega

/-- `Disassembly::get_state`: find the enclosing block, clone its entry
context, replay `transfer` up to (not including) `loc`.  `none` models the
source's panics (no enclosing block / context index out of bounds). -/
def Disassembly.get_state {T : Type} (ops : AbstractStateOps T) (d : Disassembly T)
    (loc : Nat) : Option T :=
  match d.get_enclosing_block_id loc with
  | none => none
  | some bid =>
    match d.blocks[bid]?, d.contexts[bid]? with
    | some blk, some ctx => some (stateLoop ops d.bytes ctx blk.start loc)
    | _, _ => none

/-- Stated from the spec's words for the state query: "every instruction from
the block's start up to (not including) `location`", decoded in address
order. -/
def insnsBetween (bytes : List Nat) (pc loc : Nat) : List Instruction :=
  if pc < loc then
    Instruction.decode pc bytes ::
      insnsBetween bytes (pc + (Instruction.decode pc bytes).length) loc
  else []
termination_by loc - pc
decreasing_by
  all_goals
    have := decode_length_pos pc bytes
    omega

theorem stateLoop_eq_foldl {T : Type} (ops : AbstractStateOps T) (bytes : List Nat)
    (ctx : T) (pc loc : Nat) :
    stateLoop ops bytes ctx pc loc =
      (insnsBetween bytes pc loc).foldl ops.transfer ctx := by
  rw [stateLoop, insnsBetween]
  by_cases h : pc < loc
  · simp only [if_pos h]
    exact stateLoop_eq_foldl ops bytes _ _ loc
  · simp only [if_neg h, List.foldl_nil]
termination_by loc - pc
decreasing_by
  all_goals
    have := decode_length_pos pc bytes
    omega

-- ============================================================================
-- Claim C4 — block coverage
-- ============================================================================

/-- **C4**: for every byte buffer the scanned blocks tile `[0, len)` exactly:
they are chained (first starts at 0, each block's end is the next block's
start, last ends at `len`, every block has `start < end`), hence sorted by
start and pairwise non-overlapping, and every offset below `len` lies in a
block while no offset at or past `len` does. -/
theorem scan_blocks_cover (bytes : List Nat) :
    Chained 0 bytes.length (scan_blocks bytes) ∧
    List.Pairwise (fun x y => x.endp ≤ y.start) (scan_blocks bytes) ∧
    ∀ i, i < bytes.length ↔ ∃ blk ∈ scan_blocks bytes, blk.start ≤ i ∧ i < blk.endp := by
  have hc : Chained 0 bytes.length (scan_blocks bytes) :=
    scanLoop_chained bytes 0 0 (le_refl 0) (Nat.zero_le _)
  refine ⟨hc, chained_pairwise hc, ?_⟩
  intro i
  have h := chained_coverage hc i
  simpa using h

-- ============================================================================
-- Claim C1 — read_bytes padding
-- ============================================================================

/-- **C1** (code bug): with buffer `[1, 2]` the call `read_bytes 1 3` starts
inside the buffer and ends past it.  The claim (and the source's own doc
comment, "padding with zeros as necessary") requires `end - start = 2` bytes
`[2, 0]`; the code's padding loop `for _i in end..n` iterates over an empty
range, so the call returns just `[2]`. -/
theorem read_bytes_padding_bug :
    Disassembly.read_bytes (T := Unit) (Disassembly.mk [1, 2] [] []) 1 3 = [2] ∧
    (Disassembly.read_bytes (T := Unit) (Disassembly.mk [1, 2] [] []) 1 3).length ≠ 3 - 1 := by
  constructor <;> decide

-- ============================================================================
-- Claim C9 — contexts after construction
-- ============================================================================

/-- **C9**: whenever `Disassembly::new` returns, `contexts[0]` is the domain's
`origin` and every other context is the domain's `bottom`. -/
theorem new_contexts_origin_bottom {T : Type} (ops : AbstractStateOps T)
    (bytes : List Nat) (d : Disassembly T) (h : Disassembly.new ops bytes = some d) :
    d.contexts[0]? = some ops.origin ∧
    ∀ i, 0 < i → i < d.contexts.length → d.contexts[i]? = some ops.bottom := by
  unfold Disassembly.new at h
  dsimp only at h
  split at h
  · exact absurd h (by simp)
  · rename_i hne
    injection h with h
    subst h
    dsimp only
    have hlen : 0 < (List.replicate (scan_blocks bytes).length ops.bottom).length := by
      simp only [List.length_replicate] at hne ⊢
      omega
    constructor
    · have h0 : (List.replicate (scan_blocks bytes).length ops.bottom)[0]? =
          some ops.bottom := by
        rw [List.getElem?_replicate]
        simp only [List.length_replicate] at hlen
        simp [hlen]
      simp [List.getElem?_set_self', h0]
    · intro i hi hil
      rw [List.getElem?_set_ne (by omega)]
      simp only [List.length_set, List.length_replicate] at hil
      simp [List.getElem?_replicate, hil]

/-- Witness for C9 on the one-instruction program `[STOP]`. -/
theorem new_contexts_origin_bottom_witness :
    (Disassembly.new unitOps [0]).isSome ∧
    ∀ d : Disassembly Unit, Disassembly.new unitOps [0] = some d →
      d.contexts[0]? = some () := by
  have hscan : scan_blocks [0] = [Block.mk 0 1] := by
    simp [scan_blocks, scanLoop, Instruction.decode, decodeOne, Instruction.length]
  constructor
  · simp [Disassembly.new, hscan]
  · intro d hd
    exact (new_contexts_origin_bottom unitOps [0] d hd).1

-- ============================================================================
-- Claim C10 — empty bytecode panics
-- ============================================================================

/-- **C10**: `Disassembly::new` on an empty buffer panics — the scan yields no
blocks, so the write of `origin` into `contexts[0]` indexes an empty vector
(modelled as `none`) — while construction succeeds on every non-empty
buffer. -/
theorem new_empty_bytes_panics {T : Type} (ops : AbstractStateOps T) :
    scan_blocks ([] : List Nat) = [] ∧
    Disassembly.new ops [] = none ∧
    ∀ bytes : List Nat, bytes ≠ [] → (Disassembly.new ops bytes).isSome := by
  have hemp : scan_blocks ([] : List Nat) = [] := by
    rw [scan_blocks, scanLoop]
    simp
  refine ⟨hemp, ?_, ?_⟩
  · unfold Disassembly.new
    dsimp only
    rw [hemp]
    simp
  · intro bytes hb
    have hch : Chained 0 bytes.length (scan_blocks bytes) :=
      scanLoop_chained bytes 0 0 (le_refl 0) (Nat.zero_le _)
    have hlen : bytes.length ≠ 0 := fun hc => hb (List.length_eq_zero.mp hc)
    have hblocks : scan_blocks bytes ≠ [] := by
      intro hc
      rw [hc] at hch
      have h0 : (0 : Nat) = bytes.length := hch
      omega
    unfold Disassembly.new
    dsimp only
    split
    · rename_i h0
      simp only [List.length_replicate] at h0
      exact absurd (List.length_eq_zero.mp h0) hblocks
    · simp

/-- Witness for C10: the buffer `[0]` is non-empty and construction succeeds. -/
theorem new_empty_bytes_panics_witness :
    ([0] : List Nat) ≠ [] ∧ (Disassembly.new unitOps [0]).isSome :=
  ⟨by decide, (new_empty_bytes_panics unitOps).2.2 [0] (by decide)⟩

-- ============================================================================
-- Claim C8 — get_state replays the transfer function
-- ============================================================================

/-- **C8**: for a location inside a scanned block, `get_state` equals the
entry context of the enclosing block with `transfer` applied, in address
order, to every instruction from the block's start up to (but not including)
the location; at the block's start it returns the entry context itself. -/
theorem get_state_replays_transfer {T : Type} (ops : AbstractStateOps T)
    (d : Disassembly T) (loc bid : Nat) (blk : Block) (ctx : T)
    (hbid : d.get_enclosing_block_id loc = some bid)
    (hblk : d.blocks[bid]? = some blk)
    (hctx : d.contexts[bid]? = some ctx) :
    d.get_state ops loc =
      some ((insnsBetween d.bytes blk.start loc).foldl ops.transfer ctx) ∧
    (loc = blk.start → d.get_state ops loc = some ctx) := by
  have hmain : d.get_state ops loc = some (stateLoop ops d.bytes ctx blk.start loc) := by
    unfold Disassembly.get_state
    rw [hbid]
    dsimp only
    rw [hblk, hctx]
  constructor
  · rw [hmain, stateLoop_eq_foldl]
  · intro hl
    subst hl
    rw [hmain, stateLoop]
    simp

/-- Witness for C8: the program `PUSH1 0x01; STOP` with its single block
`[0,3)` under the unit domain; querying the state at offset 2 replays one
instruction from the entry context. -/
theorem get_state_replays_transfer_witness :
    Disassembly.get_state unitOps
      (Disassembly.mk [0x60, 1, 0] [Block.mk 0 3] [()]) 2 = some () := by
  have h := get_state_replays_transfer unitOps
    (Disassembly.mk [0x60, 1, 0] [Block.mk 0 3] [()]) 2 0 (Block.mk 0 3) ()
    (by rfl) (by rfl) (by rfl)
  exact h.1

-- ============================================================================
-- Fixed-point propagation (`Disassembly::build`)
-- ============================================================================

/-- Modelled from the spec: `Instruction::can_branch` of the external `ll`
module — "for every instruction capable of branching" (spec section 4.1);
the branching instructions are the unconditional and conditional jumps. -/
def Instruction.can_branch : Instruction → Bool
  | Instruction.JUMP => true
  | Instruction.JUMPI => true
  | _ => false

/-- `self.contexts[i].merge(x)` with bounds-checked indexing: merge `x` into
the `i`-th context, returning the updated vector and the changed flag;
`none` models the source's index panic. -/
def mergeAt {T : Type} (ops : AbstractStateOps T) (cs : List T) (i : Nat) (x : T) :
    Option (List T × Bool) :=
  match cs[i]? with
  | none => none
  | some c =>
    let m := ops.merge c x
    some (cs.set i m.1, m.2)

/-- The inner instruction walk of one block inside `Disassembly::build`: from
`pc` to the block's end, merging branch contexts into target blocks (when the
abstract stack top is known) and advancing the working context by `transfer`.
Returns the updated context vector, the working context at the block's end,
and whether any merge changed anything; `none` models a panic (branch target
outside every block, or a context index out of bounds). -/
def walkBlock {T : Type} (ops : AbstractStateOps T) (bytes : List Nat)
    (blocks : List Block) (contexts : List T) (ctx : T) (pc endp : Nat) :
    Option (List T × T × Bool) :=
  if pc < endp then
    let insn := Instruction.decode pc bytes
    let step : Option (List T × Bool) :=
      if insn.can_branch && (ops.peek ctx 0).is_known then
        let target := (ops.peek ctx 0).unwrap
        let branch_ctx := ops.branch ctx target insn
        match findEnclosing blocks target 0 with
        | none => none
        | some bid => mergeAt ops contexts bid branch_ctx
      else some (contexts, false)
    match step with
    | none => none
    | some (contexts', ch) =>
      match walkBlock ops bytes blocks contexts' (ops.transfer ctx insn)
          (pc + insn.length) endp with
      | none => none
      | some (cs, c, ch') => some (cs, c, ch || ch')
  else
    some (contexts, ctx, false)
termination_by endp - pc
decreasing_by
  all_goals
    have := decode_length_pos pc bytes
    omega

/-- One full pass of `Disassembly::build` starting from block `i`: skip
blocks that are not reachable (block 0 is always treated as reachable), walk
each reachable block's instructions, then merge the final working context
into the lexically next block's entry context.  Returns the updated context
vector and whether anything changed during the rest of the pass. -/
def passFrom {T : Type} (ops : AbstractStateOps T) (bytes : List Nat)
    (blocks : List Block) (contexts : List T) (i : Nat) :
    Option (List T × Bool) :=
  if h : i < blocks.length then
    match contexts[i]? with
    | none => none
    | some ci =>
      if i = 0 || ops.is_reachable ci then
        let blk := blocks.get ⟨i, h⟩
        match walkBlock ops bytes blocks contexts ci blk.start blk.endp with
        | none => none
        | some (cs1, ctx1, ch1) =>
          let next : Option (List T × Bool) :=
            if i + 1 < blocks.length then mergeAt ops cs1 (i + 1) ctx1
            else some (cs1, false)
          match next with
          | none => none
          | some (cs2, ch2) =>
            match passFrom ops bytes blocks cs2 (i + 1) with
            | none => none
            | some (cs3, ch3) => some (cs3, ch1 || ch2 || ch3)
      else
        match passFrom ops bytes blocks contexts (i + 1) with
        | none => none
        | some (cs3, ch3) => some (cs3, ch3)
  else
    some (contexts, false)
termination_by blocks.length - i

/-- The `while changed` loop of `Disassembly::build`, with explicit fuel: run
full passes over the block sequence until a pass reports no change, returning
the final context vector.  `none` models a pass that panics, or running out
of fuel (the source loops forever on a non-monotone domain; a completed
`build` corresponds to `some`). -/
def buildLoop {T : Type} (ops : AbstractStateOps T) (bytes : List Nat)
    (blocks : List Block) : Nat → List T → Option (List T)
  | 0, _ => none
  | fuel + 1, contexts =>
    match passFrom ops bytes blocks contexts 0 with
    | none => none
    | some (cs, ch) => if ch then buildLoop ops bytes blocks fuel cs else some cs

/-- `Disassembly::build` on a disassembly value. -/
def Disassembly.build {T : Type} (ops : AbstractStateOps T) (d : Disassembly T)
    (fuel : Nat) : Option (Disassembly T) :=
  match buildLoop ops d.bytes d.blocks fuel d.contexts with
  | none => none
  | some cs => some { d with contexts := cs }

/-- The `merge` contract from the `AbstractState` trait documentation: the
returned flag indicates "whether anything changed", so a merge that reports
`false` leaves the state as it was. -/
def MergeHonest {T : Type} (ops : AbstractStateOps T) : Prop :=
  ∀ a b : T, (ops.merge a b).2 = false → (ops.merge a b).1 = a

theorem list_set_self {α : Type} (l : List α) (i : Nat) (c : α)
    (h : l[i]? = some c) : l.set i c = l := by
  induction l generalizing i with
  | nil => simp at h
  | cons hd tl ih =>
      cases i with
      | zero =>
          simp only [List.getElem?_cons_zero, Option.some.injEq] at h
          simp [h]
      | succ n =>
          simp only [List.getElem?_cons_succ] at h
          simp [List.set, ih n h]

theorem mergeAt_unchanged {T : Type} {ops : AbstractStateOps T}
    (hop : MergeHonest ops) {cs cs' : List T} {i : Nat} {x : T}
    (h : mergeAt ops cs i x = some (cs', false)) : cs' = cs := by
  unfold mergeAt at h
  split at h
  · exact absurd h (by simp)
  · rename_i c hc
    dsimp only at h
    injection h with h
    have h1 : cs.set i (ops.merge c x).1 = cs' := congrArg Prod.fst h
    have h2 : (ops.merge c x).2 = false := congrArg Prod.snd h
    rw [← h1, hop c x h2]
    exact list_set_self cs i c hc

theorem walkBlock_unchanged {T : Type} {ops : AbstractStateOps T}
    (hop : MergeHonest ops) (bytes : List Nat) (blocks : List Block)
    (cs : List T) (ctx : T) (pc endp : Nat) (cs' : List T) (c' : T)
    (h : walkBlock ops bytes blocks cs ctx pc endp = some (cs', c', false)) :
    cs' = cs := by
  rw [walkBlock] at h
  by_cases hpc : pc < endp
  · rw [if_pos hpc] at h
    dsimp only at h
    split at h
    · exact absurd h (by simp)
    · rename_i step cs1 ch hstep
      split at h
      · exact absurd h (by simp)
      · rename_i cs2 c2 ch2 hrec
        injection h with h
        have e1 : cs2 = cs' := congrArg Prod.fst h
        have e2 : (ch || ch2) = false := congrArg Prod.snd (congrArg Prod.snd h)
        have hch : ch = false := by
          cases ch <;> simp_all
        have hch2 : ch2 = false := by
          cases ch2 <;> simp_all
        subst hch hch2
        have hcs2 : cs2 = cs1 :=
          walkBlock_unchanged hop bytes blocks cs1 _ _ endp cs2 c2 hrec
        have hcs1 : cs1 = cs := by
          split at hstep
          · split at hstep
            · exact absurd hstep (by simp)
            · exact mergeAt_unchanged hop hstep
          · injection hstep with hstep
            exact (congrArg Prod.fst hstep).symm
        rw [← e1, hcs2, hcs1]
  · rw [if_neg hpc] at h
    injection h with h
    exact (congrArg Prod.fst h).symm
termination_by endp - pc
decreasing_by
  all_goals
    have := decode_length_pos pc bytes
    omega

theorem passFrom_unchanged {T : Type} {ops : AbstractStateOps T}
    (hop : MergeHonest ops) (bytes : List Nat) (blocks : List Block)
    (cs : List T) (i : Nat) (cs' : List T)
    (h : passFrom ops bytes blocks cs i = some (cs', false)) : cs' = cs := by
  rw [passFrom] at h
  by_cases hi : i < blocks.length
  · rw [dif_pos hi] at h
    dsimp only at h
    split at h
    · exact absurd h (by simp)
    · rename_i ci hci
      split at h
      · -- reachable: walk, fall-through merge, recurse
        split at h
        · exact absurd h (by simp)
        · rename_i cs1 ctx1 ch1 hwalk
          by_cases hn : i + 1 < blocks.length
          · rw [if_pos hn] at h
            split at h
            · exact absurd h (by simp)
            · rename_i cs2 ch2 hnext
              split at h
              · exact absurd h (by simp)
              · rename_i cs3 ch3 hrec
                injection h with h
                have e1 : cs3 = cs' := congrArg Prod.fst h
                have e2 : (ch1 || ch2 || ch3) = false := congrArg Prod.snd h
                have hch1 : ch1 = false := by cases ch1 <;> simp_all
                have hch2 : ch2 = false := by cases ch2 <;> simp_all
                have hch3 : ch3 = false := by cases ch3 <;> simp_all
                subst hch1 hch2 hch3
                have g3 : cs3 = cs2 :=
                  passFrom_unchanged hop bytes blocks cs2 (i + 1) cs3 hrec
                have g1 : cs1 = cs :=
                  walkBlock_unchanged hop bytes blocks cs ci _ _ cs1 ctx1 hwalk
                have g2 : cs2 = cs1 := mergeAt_unchanged hop hnext
                rw [← e1, g3, g2, g1]
          · rw [if_neg hn] at h
            dsimp only at h
            split at h
            · exact absurd h (by simp)
            · rename_i cs3 ch3 hrec
              injection h with h
              have e1 : cs3 = cs' := congrArg Prod.fst h
              have e2 : (ch1 || false || ch3) = false := congrArg Prod.snd h
              have hch1 : ch1 = false := by cases ch1 <;> simp_all
              have hch3 : ch3 = false := by cases ch3 <;> simp_all
              subst hch1 hch3
              have g3 : cs3 = cs1 :=
                passFrom_unchanged hop bytes blocks cs1 (i + 1) cs3 hrec
              have g1 : cs1 = cs :=
                walkBlock_unchanged hop bytes blocks cs ci _ _ cs1 ctx1 hwalk
              rw [← e1, g3, g1]
      · -- unreachable: skip
        split at h
        · exact absurd h (by simp)
        · rename_i cs3 ch3 hrec
          injection h with h
          have e1 : cs3 = cs' := congrArg Prod.fst h
          have e2 : ch3 = false := congrArg Prod.snd h
          subst e2
          have g3 : cs3 = cs := passFrom_unchanged hop bytes blocks cs (i + 1) cs3 hrec
          rw [← e1, g3]
  · rw [dif_neg hi] at h
    injection h with h
    exact (congrArg Prod.fst h).symm
termination_by blocks.length - i

theorem buildLoop_fixed {T : Type} {ops : AbstractStateOps T}
    (hop : MergeHonest ops) (bytes : List Nat) (blocks : List Block) :
    ∀ (fuel : Nat) (cs d : List T), buildLoop ops bytes blocks fuel cs = some d →
      passFrom ops bytes blocks d 0 = some (d, false) := by
  intro fuel
  induction fuel with
  | zero => intro cs d h; exact absurd h (by simp [buildLoop])
  | succ n ih =>
      intro cs d h
      rw [buildLoop] at h
      split at h
      · exact absurd h (by simp)
      · rename_i cs1 ch hp
        split at h
        · exact ih cs1 d h
        · rename_i hch
          injection h with h
          subst h
          have hf : ch = false := by cases ch <;> simp_all
          subst hf
          have : cs1 = cs := passFrom_unchanged hop bytes blocks cs 0 cs1 hp
          rw [this]
          rw [this] at hp
          exact hp

-- ============================================================================
-- Claim C7 — build is idempotent
-- ============================================================================

/-- **C7**: `build` is idempotent.  Under the `merge` contract (a pure merge
whose returned flag honestly reports change, so flag `false` means the state
was left as it was), after a completed `build` the next full pass over the
blocks reports no change, and running `build` again — with any positive
fuel — returns the same disassembly with an identical context vector. -/
theorem build_idempotent {T : Type} (ops : AbstractStateOps T) (hop : MergeHonest ops)
    (d d' : Disassembly T) (fuel : Nat) (h : d.build ops fuel = some d') :
    passFrom ops d'.bytes d'.blocks d'.contexts 0 = some (d'.contexts, false) ∧
    ∀ fuel', 0 < fuel' → d'.build ops fuel' = some d' := by
  unfold Disassembly.build at h
  split at h
  · exact absurd h (by simp)
  · rename_i cs hcs
    injection h with h
    subst h
    dsimp only
    have hpass := buildLoop_fixed hop d.bytes d.blocks fuel d.contexts cs hcs
    refine ⟨hpass, ?_⟩
    intro fuel' hf
    cases fuel' with
    | zero => exact absurd hf (by simp)
    | succ n =>
        unfold Disassembly.build
        dsimp only
        simp only [buildLoop, hpass]
        simp

/-- Witness for C7: the one-block program `[STOP]` under the unit domain;
`build` with fuel 1 completes, and by idempotence a second `build` run
returns the same value. -/
theorem build_idempotent_witness :
    (Disassembly.mk [0] [Block.mk 0 1] [()]).build unitOps 1 =
      some (Disassembly.mk [0] [Block.mk 0 1] [()]) := by
  have hop : MergeHonest unitOps := fun a b _ => rfl
  have h1 : (Disassembly.mk [0] [Block.mk 0 1] [()]).build unitOps 1 =
      some (Disassembly.mk [0] [Block.mk 0 1] [()]) := by
    simp [Disassembly.build, buildLoop, passFrom, walkBlock, mergeAt, findEnclosing,
      Instruction.decode, decodeOne, Instruction.length, Instruction.can_branch,
      AbstractValue.is_known, unitOps]
  exact (build_idempotent unitOps hop _ _ 1 h1).2 1 (by decide)

-- ============================================================================
-- IL terms and compiler state (src/il/compiler.rs and its collaborators)
-- ============================================================================

/-- Modelled from the spec: `BinOp` from the external `il` term model — the
binary operators the compiler dispatches on (spec section 4.2: arithmetic,
comparisons, the synthesized not-equal / less-or-equal / greater-or-equal,
and the short-circuiting logical connectives). -/
inductive BinOp where
  | Add
  | Subtract
  | Divide
  | Multiply
  | Remainder
  | Equals
  | NotEquals
  | LessThan
  | GreaterThan
  | LessThanOrEquals
  | GreaterThanOrEquals
  | LogicalAnd
  | LogicalOr
deriving Repr, DecidableEq

/-- Modelled from the spec: `Region` from the external `il` term model —
"Regions are a small closed set" (spec section 3). -/
inductive Region where
  | Memory
  | Storage
  | CallData
deriving Repr, DecidableEq

/-- Modelled from the spec: `Term` from the external `il` term model (spec
section 3): statements {assert, assignment, fail, goto, conditional-goto,
label, revert, succeed, stop} and expressions {binary operation, array
access, memory-region reference, integer/hex literal (big-endian digit
sequences)}. -/
inductive Term where
  | Assert (e : Term)
  | Assignment (lhs rhs : Term)
  | Fail
  | Goto (l : String)
  | IfGoto (e : Term) (l : String)
  | Label (l : String)
  | Revert (es : List Term)
  | Succeed (es : List Term)
  | Stop
  | Binary (bop : BinOp) (lhs rhs : Term)
  | ArrayAccess (src index : Term)
  | MemoryAccess (r : Region)
  | Int (digits : List Nat)
  | Hex (digits : List Nat)
deriving Repr

/-- `CompilerError` (src/il/compiler.rs): closed, payload-free error set. -/
inductive CompilerError where
  | LiteralOverflow
  | InvalidMemoryAccess
  | InvalidLVal
deriving Repr, DecidableEq

/-- Modelled from the spec: the external `Bytecode` builder — "fresh_label()
-> label_id (monotonically unique), push(instruction) (append-only)" (spec
section 6). -/
structure Bytecode where
  insns : List Instruction
  nextLabel : Nat
deriving Repr, DecidableEq

def Bytecode.push (b : Bytecode) (insn : Instruction) : Bytecode :=
  { b with insns := b.insns ++ [insn] }

def Bytecode.fresh_label (b : Bytecode) : Nat × Bytecode :=
  (b.nextLabel, { b with nextLabel := b.nextLabel + 1 })

/-- The compiler's state: the bytecode builder plus the memoized
symbolic-name-to-label map (`Compiler::labels`, a `HashMap` in the source,
modelled as an association list). -/
structure CompilerState where
  bytecode : Bytecode
  labels : List (String × Nat)
deriving Repr, DecidableEq

def CompilerState.push (st : CompilerState) (insn : Instruction) : CompilerState :=
  { st with bytecode := st.bytecode.push insn }

def CompilerState.fresh (st : CompilerState) : Nat × CompilerState :=
  let r := st.bytecode.fresh_label
  (r.1, { st with bytecode := r.2 })

def lookupLabel : List (String × Nat) → String → Option Nat
  | [], _ => none
  | p :: rest, s => if p.1 = s then some p.2 else lookupLabel rest s

/-- `Compiler::label`: memoized resolution of a symbolic label name to a
bytecode label id, allocating a fresh id on first reference. -/
def CompilerState.label (st : CompilerState) (l : String) : Nat × CompilerState :=
  match lookupLabel st.labels l with
  | some idx => (idx, st)
  | none =>
    let r := st.fresh
    (r.1, { r.2 with labels := (l, r.1) :: r.2.labels })

/-- The outcome of a compiler call: success with the updated state, an error
(`Err(CompilerError)`) with the builder state at the point of failure, or a
panic (`unreachable!`). -/
inductive CResult where
  | ok (st : CompilerState)
  | err (e : CompilerError) (st : CompilerState)
  | crash
deriving Repr, DecidableEq

/-- The `?` operator: continue on `Ok`, propagate `Err` and panics. -/
def CResult.bind (r : CResult) (f : CompilerState → CResult) : CResult :=
  match r with
  | CResult.ok st => f st
  | other => other

@[simp] theorem CResult.bind_ok (st : CompilerState) (f : CompilerState → CResult) :
    CResult.bind (CResult.ok st) f = f st := rfl

@[simp] theorem CResult.bind_err (e : CompilerError) (st : CompilerState)
    (f : CompilerState → CResult) :
    CResult.bind (CResult.err e st) f = CResult.err e st := rfl

@[simp] theorem CResult.bind_crash (f : CompilerState → CResult) :
    CResult.bind CResult.crash f = CResult.crash := rfl

-- ============================================================================
-- Literals (`from_be_digits`, `to_be_bytes`, `make_push`)
-- ============================================================================

/-- Modelled from the spec: `from_be_digits` from the `util` module (not under
src/) — "parse a big-endian digit sequence in a given radix (10 or 16) into an
unsigned magnitude" (spec section 4.2).  Its result type in the source is
`u128` (see `make_push(val: u128)`), so the accumulation is reduced modulo
`2^128`. -/
def from_be_digits (digits : List Nat) (radix : Nat) : Nat :=
  digits.foldl (fun acc d => (acc * radix + d) % 2 ^ 128) 0

/-- Modelled from the spec: `to_be_bytes` from the `util` module (not under
src/) — "convert to a minimal big-endian byte representation" (spec section
4.2); the minimal representation of 0 is empty. -/
def to_be_bytes (val : Nat) : List Nat :=
  if val = 0 then [] else to_be_bytes (val / 256) ++ [val % 256]
termination_by val
decreasing_by
  exact Nat.div_lt_self (Nat.pos_of_ne_zero (by assumption)) (by norm_num)

/-- The magnitude of a big-endian digit sequence with NO width reduction —
this is the spec's "unsigned magnitude" of the literal itself, used to state
what a literal's minimal byte representation is. -/
def natOfDigits (digits : List Nat) (radix : Nat) : Nat :=
  digits.foldl (fun acc d => acc * radix + d) 0

/-- `make_push` (src/il/compiler.rs): construct a push instruction from a
`u128` value; fail with `LiteralOverflow` when the byte representation
exceeds 32 bytes. -/
def make_push (val : Nat) : Except CompilerError Instruction :=
  let bytes := to_be_bytes val
  if bytes.length > 32 then Except.error CompilerError.LiteralOverflow
  else Except.ok (Instruction.PUSH bytes)

-- ============================================================================
-- Statement translation without recursion
-- ============================================================================

/-- `translate_fail`. -/
def translate_fail (st : CompilerState) : CResult :=
  CResult.ok (st.push Instruction.INVALID)

/-- `translate_goto`: resolve the label, emit `PUSHL lab; JUMP`. -/
def translate_goto (st : CompilerState) (l : String) : CResult :=
  let r := st.label l
  CResult.ok ((r.2.push (Instruction.PUSHL r.1)).push Instruction.JUMP)

/-- `translate_label`: resolve the label, emit its `JUMPDEST`. -/
def translate_label (st : CompilerState) (l : String) : CResult :=
  let r := st.label l
  CResult.ok (r.2.push (Instruction.JUMPDEST r.1))

/-- `translate_stop`. -/
def translate_stop (st : CompilerState) : CResult :=
  CResult.ok (st.push Instruction.STOP)

/-- `translate_literal`: parse the digits, make the push, emit it. -/
def translate_literal (st : CompilerState) (digits : List Nat) (radix : Nat) : CResult :=
  match make_push (from_be_digits digits radix) with
  | Except.error e => CResult.err e st
  | Except.ok insn => CResult.ok (st.push insn)

-- ============================================================================
-- The mutually recursive translators (`Compiler::translate` and helpers)
-- ============================================================================

theorem Term.sizeOf_pos (t : Term) : 0 < sizeOf t := by
  cases t <;> simp_arith

mutual

/-- `Compiler::translate`: the statement/expression dispatcher. -/
def translate (st : CompilerState) (t : Term) : CResult :=
  match t with
  | Term.Assert e => translate_assert st e
  | Term.Assignment e1 e2 => translate_assignment st e1 e2
  | Term.Fail => translate_fail st
  | Term.Goto l => translate_goto st l
  | Term.IfGoto e l => translate_ifgoto st e l
  | Term.Label l => translate_label st l
  | Term.Revert es => translate_revert st es
  | Term.Succeed es => translate_succeed st es
  | Term.Stop => translate_stop st
  | Term.Binary bop e1 e2 => translate_binary st bop e1 e2
  | Term.ArrayAccess src index => translate_array_access st src index
  | Term.MemoryAccess _ => CResult.err CompilerError.InvalidMemoryAccess st
  | Term.Int bytes => translate_literal st bytes 10
  | Term.Hex bytes => translate_literal st bytes 16

termination_by (sizeOf t, 0)
decreasing_by
  all_goals simp_wf
  all_goals
    ((try have h1 := Term.sizeOf_pos lhs); (try have h2 := Term.sizeOf_pos rhs);
     (try have h3 := Term.sizeOf_pos e); (try have h4 := Term.sizeOf_pos src);
     (try have h5 := Term.sizeOf_pos index); (try have h6 := Term.sizeOf_pos address);
     omega)
/-- `translate_assert`: conditional with a fresh true target, then `INVALID`,
then the join label. -/
def translate_assert (st : CompilerState) (e : Term) : CResult :=
  let r := st.fresh
  CResult.bind (translate_conditional r.2 e (some r.1) none) fun st2 =>
    CResult.ok ((st2.push Instruction.INVALID).push (Instruction.JUMPDEST r.1))

termination_by (sizeOf e, 9)
decreasing_by
  all_goals simp_wf
  all_goals
    ((try have h1 := Term.sizeOf_pos lhs); (try have h2 := Term.sizeOf_pos rhs);
     (try have h3 := Term.sizeOf_pos e); (try have h4 := Term.sizeOf_pos src);
     (try have h5 := Term.sizeOf_pos index); (try have h6 := Term.sizeOf_pos address);
     omega)
/-- `translate_assignment`: value first, then the store target. -/
def translate_assignment (st : CompilerState) (lhs rhs : Term) : CResult :=
  CResult.bind (translate st rhs) fun st1 =>
    match lhs with
    | Term.ArrayAccess src idx => translate_assignment_array st1 src idx
    | _ => CResult.err CompilerError.InvalidLVal st1

termination_by (sizeOf lhs + sizeOf rhs, 9)
decreasing_by
  all_goals simp_wf
  all_goals
    ((try have h1 := Term.sizeOf_pos lhs); (try have h2 := Term.sizeOf_pos rhs);
     (try have h3 := Term.sizeOf_pos e); (try have h4 := Term.sizeOf_pos src);
     (try have h5 := Term.sizeOf_pos index); (try have h6 := Term.sizeOf_pos address);
     omega)
/-- `translate_assignment_array`. -/
def translate_assignment_array (st : CompilerState) (src index : Term) : CResult :=
  match src with
  | Term.MemoryAccess r => translate_assignment_memory st r index
  | _ => CResult.err CompilerError.InvalidMemoryAccess st

termination_by (sizeOf src + sizeOf index, 5)
decreasing_by
  all_goals simp_wf
  all_goals
    ((try have h1 := Term.sizeOf_pos lhs); (try have h2 := Term.sizeOf_pos rhs);
     (try have h3 := Term.sizeOf_pos e); (try have h4 := Term.sizeOf_pos src);
     (try have h5 := Term.sizeOf_pos index); (try have h6 := Term.sizeOf_pos address);
     omega)
/-- `translate_assignment_memory`. -/
def translate_assignment_memory (st : CompilerState) (region : Region)
    (address : Term) : CResult :=
  CResult.bind (translate st address) fun st1 =>
    match region with
    | Region.Memory => CResult.ok (st1.push Instruction.MSTORE)
    | Region.Storage => CResult.ok (st1.push Instruction.SSTORE)
    | Region.CallData => CResult.err CompilerError.InvalidMemoryAccess st1

termination_by (sizeOf address, 9)
decreasing_by
  all_goals simp_wf
  all_goals
    ((try have h1 := Term.sizeOf_pos lhs); (try have h2 := Term.sizeOf_pos rhs);
     (try have h3 := Term.sizeOf_pos e); (try have h4 := Term.sizeOf_pos src);
     (try have h5 := Term.sizeOf_pos index); (try have h6 := Term.sizeOf_pos address);
     omega)
/-- `translate_ifgoto`: conditional with only the resolved true target. -/
def translate_ifgoto (st : CompilerState) (e : Term) (l : String) : CResult :=
  let r := st.label l
  translate_conditional r.2 e (some r.1) none

termination_by (sizeOf e, 9)
decreasing_by
  all_goals simp_wf
  all_goals
    ((try have h1 := Term.sizeOf_pos lhs); (try have h2 := Term.sizeOf_pos rhs);
     (try have h3 := Term.sizeOf_pos e); (try have h4 := Term.sizeOf_pos src);
     (try have h5 := Term.sizeOf_pos index); (try have h6 := Term.sizeOf_pos address);
     omega)
/-- `translate_revert`. -/
def translate_revert (st : CompilerState) (es : List Term) : CResult :=
  translate_succeed_revert st Instruction.REVERT es

termination_by (sizeOf es, 9)
decreasing_by
  all_goals simp_wf
  all_goals
    ((try have h1 := Term.sizeOf_pos lhs); (try have h2 := Term.sizeOf_pos rhs);
     (try have h3 := Term.sizeOf_pos e); (try have h4 := Term.sizeOf_pos src);
     (try have h5 := Term.sizeOf_pos index); (try have h6 := Term.sizeOf_pos address);
     omega)
/-- `translate_succeed`: a bare `STOP` with no expressions. -/
def translate_succeed (st : CompilerState) (es : List Term) : CResult :=
  if es.length = 0 then CResult.ok (st.push Instruction.STOP)
  else translate_succeed_revert st Instruction.RETURN es

termination_by (sizeOf es, 9)
decreasing_by
  all_goals simp_wf
  all_goals
    ((try have h1 := Term.sizeOf_pos lhs); (try have h2 := Term.sizeOf_pos rhs);
     (try have h3 := Term.sizeOf_pos e); (try have h4 := Term.sizeOf_pos src);
     (try have h5 := Term.sizeOf_pos index); (try have h6 := Term.sizeOf_pos address);
     omega)
/-- `translate_succeed_revert`: store each expression into its 32-byte memory
slot, then emit the range `[0, len*32)` and the terminator. -/
def translate_succeed_revert (st : CompilerState) (insn : Instruction)
    (es : List Term) : CResult :=
  if es.length = 0 then
    CResult.ok (((st.push (Instruction.PUSH [0])).push (Instruction.PUSH [0])).push insn)
  else
    CResult.bind (translate_store_seq st es 0) fun st1 =>
      match make_push ((es.length * 0x20) % 2 ^ 128) with
      | Except.error e => CResult.err e st1
      | Except.ok pi =>
        CResult.ok (((st1.push (Instruction.PUSH [0])).push pi).push insn)

termination_by (sizeOf es, 5)
decreasing_by
  all_goals simp_wf
  all_goals
    ((try have h1 := Term.sizeOf_pos lhs); (try have h2 := Term.sizeOf_pos rhs);
     (try have h3 := Term.sizeOf_pos e); (try have h4 := Term.sizeOf_pos src);
     (try have h5 := Term.sizeOf_pos index); (try have h6 := Term.sizeOf_pos address);
     omega)
/-- The `for i in 0..exprs.len()` loop of `translate_succeed_revert`: value,
push of slot address `i * 0x20`, `MSTORE`. -/
def translate_store_seq (st : CompilerState) (es : List Term) (i : Nat) : CResult :=
  match es with
  | [] => CResult.ok st
  | e :: rest =>
    CResult.bind (translate st e) fun st1 =>
      match make_push ((i * 0x20) % 2 ^ 128) with
      | Except.error er => CResult.err er st1
      | Except.ok pi =>
        translate_store_seq ((st1.push pi).push Instruction.MSTORE) rest (i + 1)

termination_by (sizeOf es, 4)
decreasing_by
  all_goals simp_wf
  all_goals
    ((try have h1 := Term.sizeOf_pos lhs); (try have h2 := Term.sizeOf_pos rhs);
     (try have h3 := Term.sizeOf_pos e); (try have h4 := Term.sizeOf_pos src);
     (try have h5 := Term.sizeOf_pos index); (try have h6 := Term.sizeOf_pos address);
     omega)
/-- `translate_conditional`: short-circuiting conditional dispatch. -/
def translate_conditional (st : CompilerState) (e : Term)
    (true_lab false_lab : Option Nat) : CResult :=
  match e with
  | Term.Binary BinOp.LogicalAnd l r =>
      translate_conditional_conjunct st l r true_lab false_lab
  | Term.Binary BinOp.LogicalOr l r =>
      translate_conditional_disjunct st l r true_lab false_lab
  | eo => translate_conditional_other st eo true_lab false_lab

termination_by (sizeOf e, 2)
decreasing_by
  all_goals simp_wf
  all_goals
    ((try have h1 := Term.sizeOf_pos lhs); (try have h2 := Term.sizeOf_pos rhs);
     (try have h3 := Term.sizeOf_pos e); (try have h4 := Term.sizeOf_pos src);
     (try have h5 := Term.sizeOf_pos index); (try have h6 := Term.sizeOf_pos address);
     omega)
/-- `translate_conditional_conjunct`: logical AND as a branch. -/
def translate_conditional_conjunct (st : CompilerState) (lhs rhs : Term)
    (true_lab false_lab : Option Nat) : CResult :=
  match true_lab, false_lab with
  | some _, none =>
      let r := st.fresh
      CResult.bind (translate_conditional r.2 lhs none (some r.1)) fun st1 =>
        CResult.bind (translate_conditional st1 rhs true_lab none) fun st2 =>
          CResult.ok (st2.push (Instruction.JUMPDEST r.1))
  | none, some _ =>
      CResult.bind (translate_conditional st lhs none false_lab) fun st1 =>
        translate_conditional st1 rhs true_lab false_lab
  | _, _ => CResult.crash

termination_by (sizeOf lhs + sizeOf rhs, 9)
decreasing_by
  all_goals simp_wf
  all_goals
    ((try have h1 := Term.sizeOf_pos lhs); (try have h2 := Term.sizeOf_pos rhs);
     (try have h3 := Term.sizeOf_pos e); (try have h4 := Term.sizeOf_pos src);
     (try have h5 := Term.sizeOf_pos index); (try have h6 := Term.sizeOf_pos address);
     omega)
/-- `translate_conditional_disjunct`: logical OR as a branch. -/
def translate_conditional_disjunct (st : CompilerState) (lhs rhs : Term)
    (true_lab false_lab : Option Nat) : CResult :=
  match true_lab, false_lab with
  | none, some _ =>
      let r := st.fresh
      CResult.bind (translate_conditional r.2 lhs (some r.1) none) fun st1 =>
        CResult.bind (translate_conditional st1 rhs none false_lab) fun st2 =>
          CResult.ok (st2.push (Instruction.JUMPDEST r.1))
  | some _, none =>
      CResult.bind (translate_conditional st lhs true_lab none) fun st1 =>
        translate_conditional st1 rhs true_lab false_lab
  | _, _ => CResult.crash

termination_by (sizeOf lhs + sizeOf rhs, 9)
decreasing_by
  all_goals simp_wf
  all_goals
    ((try have h1 := Term.sizeOf_pos lhs); (try have h2 := Term.sizeOf_pos rhs);
     (try have h3 := Term.sizeOf_pos e); (try have h4 := Term.sizeOf_pos src);
     (try have h5 := Term.sizeOf_pos index); (try have h6 := Term.sizeOf_pos address);
     omega)
/-- `translate_conditional_other`: generate the boolean value, then dispatch
on the one present target; with neither or both targets present this is the
source's `unreachable!` (after the value translation). -/
def translate_conditional_other (st : CompilerState) (e : Term)
    (true_lab false_lab : Option Nat) : CResult :=
  CResult.bind (translate st e) fun st1 =>
    match true_lab, false_lab with
    | some lab, none =>
        CResult.ok ((st1.push (Instruction.PUSHL lab)).push Instruction.JUMPI)
    | none, some lab =>
        CResult.ok (((st1.push Instruction.ISZERO).push
          (Instruction.PUSHL lab)).push Instruction.JUMPI)
    | _, _ => CResult.crash

termination_by (sizeOf e, 1)
decreasing_by
  all_goals simp_wf
  all_goals
    ((try have h1 := Term.sizeOf_pos lhs); (try have h2 := Term.sizeOf_pos rhs);
     (try have h3 := Term.sizeOf_pos e); (try have h4 := Term.sizeOf_pos src);
     (try have h5 := Term.sizeOf_pos index); (try have h6 := Term.sizeOf_pos address);
     omega)
/-- `translate_binary`: logical connectives vs. everything else. -/
def translate_binary (st : CompilerState) (bop : BinOp) (lhs rhs : Term) : CResult :=
  match bop with
  | BinOp.LogicalAnd => translate_logical_connective st bop lhs rhs
  | BinOp.LogicalOr => translate_logical_connective st bop lhs rhs
  | _ => translate_binary_arithmetic st bop lhs rhs

termination_by (sizeOf lhs + sizeOf rhs, 9)
decreasing_by
  all_goals simp_wf
  all_goals
    ((try have h1 := Term.sizeOf_pos lhs); (try have h2 := Term.sizeOf_pos rhs);
     (try have h3 := Term.sizeOf_pos e); (try have h4 := Term.sizeOf_pos src);
     (try have h5 := Term.sizeOf_pos index); (try have h6 := Term.sizeOf_pos address);
     omega)
/-- `translate_logical_connective`: short-circuit value of `&&`/`||` with one
fresh join label. -/
def translate_logical_connective (st : CompilerState) (bop : BinOp)
    (lhs rhs : Term) : CResult :=
  CResult.bind (translate st lhs) fun st1 =>
    let st2 := st1.push (Instruction.DUP 1)
    let st3 := if bop = BinOp.LogicalAnd then st2.push Instruction.ISZERO else st2
    let r := st3.fresh
    let st4 := ((r.2.push (Instruction.PUSHL r.1)).push Instruction.JUMPI).push
      Instruction.POP
    CResult.bind (translate st4 rhs) fun st5 =>
      CResult.ok (st5.push (Instruction.JUMPDEST r.1))

termination_by (sizeOf lhs + sizeOf rhs, 5)
decreasing_by
  all_goals simp_wf
  all_goals
    ((try have h1 := Term.sizeOf_pos lhs); (try have h2 := Term.sizeOf_pos rhs);
     (try have h3 := Term.sizeOf_pos e); (try have h4 := Term.sizeOf_pos src);
     (try have h5 := Term.sizeOf_pos index); (try have h6 := Term.sizeOf_pos address);
     omega)
/-- `translate_binary_arithmetic`: right operand first, then left, then the
op (comparisons without primitives get a trailing `ISZERO`).  The source's
catch-all arm is `unreachable!` — only the logical connectives fall into it,
and they are dispatched to `translate_logical_connective` instead. -/
def translate_binary_arithmetic (st : CompilerState) (bop : BinOp)
    (lhs rhs : Term) : CResult :=
  CResult.bind (translate st rhs) fun st1 =>
    CResult.bind (translate st1 lhs) fun st2 =>
      match bop with
      | BinOp.Add => CResult.ok (st2.push Instruction.ADD)
      | BinOp.Subtract => CResult.ok (st2.push Instruction.SUB)
      | BinOp.Divide => CResult.ok (st2.push Instruction.DIV)
      | BinOp.Multiply => CResult.ok (st2.push Instruction.MUL)
      | BinOp.Remainder => CResult.ok (st2.push Instruction.MOD)
      | BinOp.Equals => CResult.ok (st2.push Instruction.EQ)
      | BinOp.LessThan => CResult.ok (st2.push Instruction.LT)
      | BinOp.GreaterThan => CResult.ok (st2.push Instruction.GT)
      | BinOp.NotEquals =>
          CResult.ok ((st2.push Instruction.EQ).push Instruction.ISZERO)
      | BinOp.LessThanOrEquals =>
          CResult.ok ((st2.push Instruction.GT).push Instruction.ISZERO)
      | BinOp.GreaterThanOrEquals =>
          CResult.ok ((st2.push Instruction.LT).push Instruction.ISZERO)
      | BinOp.LogicalAnd => CResult.crash
      | BinOp.LogicalOr => CResult.crash

termination_by (sizeOf lhs + sizeOf rhs, 5)
decreasing_by
  all_goals simp_wf
  all_goals
    ((try have h1 := Term.sizeOf_pos lhs); (try have h2 := Term.sizeOf_pos rhs);
     (try have h3 := Term.sizeOf_pos e); (try have h4 := Term.sizeOf_pos src);
     (try have h5 := Term.sizeOf_pos index); (try have h6 := Term.sizeOf_pos address);
     omega)
/-- `translate_array_access`. -/
def translate_array_access (st : CompilerState) (src index : Term) : CResult :=
  match src with
  | Term.MemoryAccess r => translate_memory_access st r index
  | _ => CResult.err CompilerError.InvalidMemoryAccess st

termination_by (sizeOf src + sizeOf index, 5)
decreasing_by
  all_goals simp_wf
  all_goals
    ((try have h1 := Term.sizeOf_pos lhs); (try have h2 := Term.sizeOf_pos rhs);
     (try have h3 := Term.sizeOf_pos e); (try have h4 := Term.sizeOf_pos src);
     (try have h5 := Term.sizeOf_pos index); (try have h6 := Term.sizeOf_pos address);
     omega)
/-- `translate_memory_access`: index expression, then the region load. -/
def translate_memory_access (st : CompilerState) (region : Region)
    (index : Term) : CResult :=
  CResult.bind (translate st index) fun st1 =>
    match region with
    | Region.Memory => CResult.ok (st1.push Instruction.MLOAD)
    | Region.Storage => CResult.ok (st1.push Instruction.SLOAD)
    | Region.CallData => CResult.ok (st1.push Instruction.CALLDATALOAD)
termination_by (sizeOf index, 9)
decreasing_by
  all_goals simp_wf
  all_goals
    ((try have h1 := Term.sizeOf_pos lhs); (try have h2 := Term.sizeOf_pos rhs);
     (try have h3 := Term.sizeOf_pos e); (try have h4 := Term.sizeOf_pos src);
     (try have h5 := Term.sizeOf_pos index); (try have h6 := Term.sizeOf_pos address);
     omega)
end

-- ============================================================================
-- Claim C2 — literal overflow
-- ============================================================================

theorem to_be_bytes_zero : to_be_bytes 0 = [] := by
  rw [to_be_bytes]
  simp

theorem to_be_bytes_length_le (k : Nat) :
    ∀ v : Nat, v < 256 ^ k → (to_be_bytes v).length ≤ k := by
  induction k with
  | zero =>
      intro v hv
      have : v = 0 := by omega
      subst this
      simp [to_be_bytes_zero]
  | succ n ih =>
      intro v hv
      by_cases h0 : v = 0
      · subst h0
        simp [to_be_bytes_zero]
      · rw [to_be_bytes, if_neg h0]
        have hdiv : v / 256 < 256 ^ n := by
          rw [Nat.div_lt_iff_lt_mul (by norm_num)]
          calc v < 256 ^ (n + 1) := hv
            _ = 256 ^ n * 256 := by ring
        have := ih (v / 256) hdiv
        simp only [List.length_append, List.length_cons, List.length_nil]
        omega

theorem to_be_bytes_length_eq (k : Nat) :
    ∀ v : Nat, 256 ^ k ≤ v → v < 256 ^ (k + 1) → (to_be_bytes v).length = k + 1 := by
  induction k with
  | zero =>
      intro v h1 h2
      simp only [pow_zero] at h1
      have h0 : v ≠ 0 := by omega
      rw [to_be_bytes, if_neg h0]
      have : v / 256 = 0 := by
        apply Nat.div_eq_of_lt
        simpa using h2
      rw [this, to_be_bytes_zero]
      simp
  | succ n ih =>
      intro v h1 h2
      have h0 : v ≠ 0 := by
        have : 0 < 256 ^ (n + 1) := by positivity
        omega
      rw [to_be_bytes, if_neg h0]
      have hlow : 256 ^ n ≤ v / 256 := by
        rw [Nat.le_div_iff_mul_le (by norm_num)]
        calc 256 ^ n * 256 = 256 ^ (n + 1) := by ring
          _ ≤ v := h1
      have hhigh : v / 256 < 256 ^ (n + 1) := by
        rw [Nat.div_lt_iff_lt_mul (by norm_num)]
        calc v < 256 ^ (n + 1 + 1) := h2
          _ = 256 ^ (n + 1) * 256 := by ring
      have := ih (v / 256) hlow hhigh
      simp only [List.length_append, List.length_cons, List.length_nil]
      omega

theorem from_be_digits_lt (digits : List Nat) (radix : Nat) :
    from_be_digits digits radix < 2 ^ 128 := by
  unfold from_be_digits
  have key : ∀ (l : List Nat) (acc : Nat), acc < 2 ^ 128 →
      l.foldl (fun acc d => (acc * radix + d) % 2 ^ 128) acc < 2 ^ 128 := by
    intro l
    induction l with
    | nil => intro acc h; simpa using h
    | cons d rest ih =>
        intro acc h
        simp only [List.foldl_cons]
        exact ih _ (Nat.mod_lt _ (by norm_num))
  exact key digits 0 (by norm_num)

theorem make_push_ok (v : Nat) (h : v < 2 ^ 128) :
    make_push v = Except.ok (Instruction.PUSH (to_be_bytes v)) := by
  unfold make_push
  have hlen : (to_be_bytes v).length ≤ 16 := by
    apply to_be_bytes_length_le 16
    calc v < 2 ^ 128 := h
      _ = 256 ^ 16 := by norm_num
  rw [if_neg (by omega)]

/-- **C2** (amended): `make_push` fails with `LiteralOverflow` exactly when the
value's minimal byte representation exceeds 32 bytes; but every literal value
reaching it is a `u128`, whose minimal representation never exceeds 16 bytes,
so translating an integer or hex literal always succeeds — `LiteralOverflow`
is unreachable through literal translation, and the 32-byte boundary is never
exercised. -/
theorem literal_overflow_unreachable :
    (∀ v : Nat, make_push v = Except.error CompilerError.LiteralOverflow ↔
      32 < (to_be_bytes v).length) ∧
    (∀ (digits : List Nat) (radix : Nat) (st : CompilerState),
      translate_literal st digits radix =
        CResult.ok (st.push (Instruction.PUSH (to_be_bytes (from_be_digits digits radix))))) := by
  constructor
  · intro v
    unfold make_push
    constructor
    · intro h
      by_contra hc
      rw [if_neg hc] at h
      exact absurd h (by simp)
    · intro h
      rw [if_pos h]
  · intro digits radix st
    unfold translate_literal
    rw [make_push_ok _ (from_be_digits_lt digits radix)]

/-- **C2** (counterexample): the 66-digit hex literal `0x1000...0001`
(value `16^65 + 1 = 2^260 + 1`) needs 33 bytes — more than the 32-byte
machine word — yet compiling it succeeds (the value wraps through the
128-bit intermediate to 1 and a one-byte push is emitted) instead of
returning `Err(LiteralOverflow)`. -/
theorem literal_overflow_counterexample :
    32 < (to_be_bytes (natOfDigits (1 :: (List.replicate 64 0 ++ [1])) 16)).length ∧
    translate_literal (CompilerState.mk (Bytecode.mk [] 0) [])
        (1 :: (List.replicate 64 0 ++ [1])) 16 =
      CResult.ok (CompilerState.mk (Bytecode.mk [Instruction.PUSH [1]] 0) []) := by
  have hrep : ∀ (n : Nat) (acc : Nat),
      List.foldl (fun a d => a * 16 + d) acc (List.replicate n 0) = acc * 16 ^ n := by
    intro n
    induction n with
    | zero => intro acc; simp
    | succ m ih =>
        intro acc
        rw [List.replicate_succ, List.foldl_cons, ih]
        ring
  have hwrap : ∀ (n : Nat) (acc : Nat), acc < 2 ^ 128 →
      List.foldl (fun a d => (a * 16 + d) % 2 ^ 128) acc (List.replicate n 0) =
        acc * 16 ^ n % 2 ^ 128 := by
    intro n
    induction n with
    | zero =>
        intro acc h
        simp only [List.replicate, List.foldl_nil, pow_zero, mul_one]
        exact (Nat.mod_eq_of_lt h).symm
    | succ m ih =>
        intro acc h
        rw [List.replicate_succ, List.foldl_cons, ih _ (Nat.mod_lt _ (by norm_num))]
        rw [add_zero, Nat.mod_mul_mod]
        congr 1
        ring
  have hval : natOfDigits (1 :: (List.replicate 64 0 ++ [1])) 16 = 2 ^ 260 + 1 := by
    unfold natOfDigits
    rw [List.foldl_cons, List.foldl_append, hrep 64]
    simp only [List.foldl_cons, List.foldl_nil]
    have h1 : ((0:ℕ) * 16 + 1) = 1 := by norm_num
    rw [h1, one_mul, ← pow_succ, show (16:ℕ) = 2 ^ 4 by norm_num, ← pow_mul]
  have hfrom : from_be_digits (1 :: (List.replicate 64 0 ++ [1])) 16 = 1 := by
    unfold from_be_digits
    rw [List.foldl_cons, List.foldl_append,
      hwrap 64 ((0 * 16 + 1) % 2 ^ 128) (Nat.mod_lt _ (by norm_num))]
    simp only [List.foldl_cons, List.foldl_nil]
    have h16 : ((0 * 16 + 1) % 2 ^ 128) * 16 ^ 64 % 2 ^ 128 = 0 := by
      have hx : ((0:ℕ) * 16 + 1) % 2 ^ 128 = 1 := by norm_num
      have hy : (16:ℕ) ^ 64 = 2 ^ 128 * 2 ^ 128 := by
        rw [show (16:ℕ) = 2 ^ 4 by norm_num, ← pow_mul, ← pow_add]
      rw [hx, one_mul, hy, Nat.mul_mod_right]
    rw [h16]
    norm_num
  constructor
  · rw [hval]
    have e1 : (256:ℕ) ^ 32 = 2 ^ 256 := by
      conv_lhs => rw [show (256:ℕ) = 2 ^ 8 by norm_num]
      rw [← pow_mul]
    have e2 : (256:ℕ) ^ 33 = 2 ^ 264 := by
      conv_lhs => rw [show (256:ℕ) = 2 ^ 8 by norm_num]
      rw [← pow_mul]
    have hb1 : (256:ℕ) ^ 32 ≤ 2 ^ 260 + 1 := by
      rw [e1]
      have := Nat.pow_le_pow_right (show 1 ≤ 2 by norm_num)
        (show 256 ≤ 260 by norm_num)
      omega
    have hb2 : 2 ^ 260 + 1 < (256:ℕ) ^ 33 := by
      rw [e2]
      have h264 := Nat.pow_lt_pow_right (show 1 < 2 by norm_num)
        (show 260 < 264 by norm_num)
      omega
    have hlen := to_be_bytes_length_eq 32 (2 ^ 260 + 1) hb1 hb2
    omega
  · unfold translate_literal
    rw [hfrom, make_push_ok 1 (by norm_num)]
    have h1 : to_be_bytes 1 = [1] := by
      rw [to_be_bytes]
      norm_num [to_be_bytes_zero]
    rw [h1]
    rfl

-- ============================================================================
-- Claim C3 — the conditional-translation target contract
-- ============================================================================

/-- The conditions that fall through `translate_conditional`'s dispatch to
`translate_conditional_other` (everything but the logical connectives). -/
def condDispatchOther (e : Term) : Prop :=
  match e with
  | Term.Binary BinOp.LogicalAnd _ _ => False
  | Term.Binary BinOp.LogicalOr _ _ => False
  | _ => True

theorem conditional_dispatch_other (st : CompilerState) (e : Term)
    (t f : Option Nat) (h : condDispatchOther e) :
    translate_conditional st e t f = translate_conditional_other st e t f := by
  cases e
  case Binary bop l r =>
    cases bop
    case LogicalAnd => exact h.elim
    case LogicalOr => exact h.elim
    all_goals rw [translate_conditional]
    all_goals (intro a b hh; simp at hh)
  all_goals rw [translate_conditional]
  all_goals (intro a b hh; simp at hh)

theorem conditional_other_bad (st : CompilerState) (e : Term) (t f : Option Nat)
    (hbad : (t = none ∧ f = none) ∨ ∃ a b, t = some a ∧ f = some b) :
    translate_conditional_other st e t f = CResult.crash ∨
    ∃ er st1, translate_conditional_other st e t f = CResult.err er st1 := by
  cases h : translate st e with
  | ok st1 =>
      left
      rw [translate_conditional_other, h]
      simp only [CResult.bind_ok]
      rcases hbad with ⟨rfl, rfl⟩ | ⟨a, b, rfl, rfl⟩ <;> rfl
  | err er st1 =>
      right
      refine ⟨er, st1, ?_⟩
      rw [translate_conditional_other, h]
      rfl
  | crash =>
      left
      rw [translate_conditional_other, h]
      rfl

theorem conditional_bad_targets (st : CompilerState) (e : Term) (t f : Option Nat)
    (hbad : (t = none ∧ f = none) ∨ ∃ a b, t = some a ∧ f = some b) :
    translate_conditional st e t f = CResult.crash ∨
    ∃ er st1, translate_conditional st e t f = CResult.err er st1 := by
  cases e
  case Binary bop l r =>
    cases bop
    case LogicalAnd =>
      left
      rcases hbad with ⟨rfl, rfl⟩ | ⟨a, b, rfl, rfl⟩ <;>
        (rw [translate_conditional, translate_conditional_conjunct] <;>
          (intro v h1 h2; simp at h1 h2))
    case LogicalOr =>
      left
      rcases hbad with ⟨rfl, rfl⟩ | ⟨a, b, rfl, rfl⟩ <;>
        (rw [translate_conditional, translate_conditional_disjunct] <;>
          (intro v h1 h2; simp at h1 h2))
    all_goals
      rw [conditional_dispatch_other st _ t f (by trivial)]
      exact conditional_other_bad st _ t f hbad
  all_goals
    rw [conditional_dispatch_other st _ t f (by trivial)]
    exact conditional_other_bad st _ t f hbad

/-- **C3** (amended): a conditional-translation call with neither or both
targets present never succeeds: the logical connectives hit `unreachable!`
immediately, and any other condition has its value translated first — so the
call panics unless that translation fails, in which case its error is
propagated instead of a panic.  Conversely, every call that returns `Ok` had
exactly one of the two targets present. -/
theorem conditional_requires_one_target :
    (∀ (st : CompilerState) (e : Term) (t f : Option Nat),
      ((t = none ∧ f = none) ∨ ∃ a b, t = some a ∧ f = some b) →
      translate_conditional st e t f = CResult.crash ∨
      ∃ er st1, translate_conditional st e t f = CResult.err er st1) ∧
    (∀ (st : CompilerState) (e : Term) (t f : Option Nat) (st' : CompilerState),
      translate_conditional st e t f = CResult.ok st' →
      (t ≠ none ∧ f = none) ∨ (t = none ∧ f ≠ none)) := by
  refine ⟨conditional_bad_targets, ?_⟩
  intro st e t f st' h
  cases t with
  | some a =>
      cases f with
      | none => exact Or.inl ⟨by simp, rfl⟩
      | some b =>
          exfalso
          rcases conditional_bad_targets st e (some a) (some b)
              (Or.inr ⟨a, b, rfl, rfl⟩) with hcr | ⟨er, st1, herr⟩
          · rw [h] at hcr; exact absurd hcr (by simp)
          · rw [h] at herr; exact absurd herr (by simp)
  | none =>
      cases f with
      | some b => exact Or.inr ⟨rfl, by simp⟩
      | none =>
          exfalso
          rcases conditional_bad_targets st e none none
              (Or.inl ⟨rfl, rfl⟩) with hcr | ⟨er, st1, herr⟩
          · rw [h] at hcr; exact absurd hcr (by simp)
          · rw [h] at herr; exact absurd herr (by simp)

/-- **C3** (counterexample): with neither target present and the condition a
bare memory-region reference, the call returns `Err(InvalidMemoryAccess)`
rather than panicking — `translate_conditional_other` translates the
condition's value before matching on the targets, and that translation fails
first. -/
theorem conditional_no_target_no_panic :
    translate_conditional (CompilerState.mk (Bytecode.mk [] 0) [])
        (Term.MemoryAccess Region.Memory) none none =
      CResult.err CompilerError.InvalidMemoryAccess
        (CompilerState.mk (Bytecode.mk [] 0) []) ∧
    translate_conditional (CompilerState.mk (Bytecode.mk [] 0) [])
        (Term.MemoryAccess Region.Memory) none none ≠ CResult.crash := by
  have h : translate_conditional (CompilerState.mk (Bytecode.mk [] 0) [])
      (Term.MemoryAccess Region.Memory) none none =
      CResult.err CompilerError.InvalidMemoryAccess
        (CompilerState.mk (Bytecode.mk [] 0) []) := by
    rw [translate_conditional, translate_conditional_other, translate]
    all_goals first
      | rfl
      | (intro a b hh; simp at hh)
  exact ⟨h, by rw [h]; simp⟩

/-- Witness for C3 at a concrete bad call: an integer-literal condition with
neither target present (the call panics, per the theorem it cannot succeed). -/
theorem conditional_requires_one_target_witness :
    translate_conditional (CompilerState.mk (Bytecode.mk [] 0) [])
        (Term.Int [1]) none none = CResult.crash ∨
    ∃ er st1, translate_conditional (CompilerState.mk (Bytecode.mk [] 0) [])
        (Term.Int [1]) none none = CResult.err er st1 :=
  conditional_requires_one_target.1 (CompilerState.mk (Bytecode.mk [] 0) [])
    (Term.Int [1]) none none (Or.inl ⟨rfl, rfl⟩)

-- ============================================================================
-- Claim C5 — logical-AND conditional lowering (true target only)
-- ============================================================================

@[simp] theorem push_insns (st : CompilerState) (i : Instruction) :
    (st.push i).bytecode.insns = st.bytecode.insns ++ [i] := rfl

@[simp] theorem fresh_insns (st : CompilerState) :
    st.fresh.2.bytecode.insns = st.bytecode.insns := rfl

@[simp] theorem fresh_fst (st : CompilerState) :
    st.fresh.1 = st.bytecode.nextLabel := rfl

theorem conditional_other_false_target (st : CompilerState) (e : Term) (lab : Nat)
    (st1 : CompilerState) (h : translate st e = CResult.ok st1) :
    translate_conditional_other st e none (some lab) =
      CResult.ok (((st1.push Instruction.ISZERO).push
        (Instruction.PUSHL lab)).push Instruction.JUMPI) := by
  rw [translate_conditional_other, h]
  rfl

theorem conditional_other_true_target (st : CompilerState) (e : Term) (lab : Nat)
    (st1 : CompilerState) (h : translate st e = CResult.ok st1) :
    translate_conditional_other st e (some lab) none =
      CResult.ok ((st1.push (Instruction.PUSHL lab)).push Instruction.JUMPI) := by
  rw [translate_conditional_other, h]
  rfl

/-- **C5**: lowering `lhs && rhs` as a conditional with only a true target
allocates one fresh skip label (the builder's next label), lowers `lhs` as a
conditional whose only target is the *false* target equal to that skip label,
then lowers `rhs` as a conditional whose only target is the original true
target, then places the skip label's jump destination.  For non-logical
operands whose own value code is `dl`/`dr`, the emitted stream is exactly
`dl ++ [ISZERO, PUSHL skip, JUMPI] ++ dr ++ [PUSHL tgt, JUMPI] ++
[JUMPDEST skip]` — one conditional jump per operand and no unconditional
jump beyond those inside the operand values. -/
theorem conjunct_true_target_lowering
    (st : CompilerState) (lhs rhs : Term) (tgt : Nat)
    (hl : condDispatchOther lhs) (hr : condDispatchOther rhs)
    (dl dr : List Instruction) (stl str : CompilerState)
    (htl : translate st.fresh.2 lhs = CResult.ok stl)
    (hdl : stl.bytecode.insns = st.bytecode.insns ++ dl)
    (htr : translate (((stl.push Instruction.ISZERO).push
        (Instruction.PUSHL st.bytecode.nextLabel)).push Instruction.JUMPI) rhs =
        CResult.ok str)
    (hdr : str.bytecode.insns = (((stl.push Instruction.ISZERO).push
        (Instruction.PUSHL st.bytecode.nextLabel)).push
          Instruction.JUMPI).bytecode.insns ++ dr) :
    ∃ stf, translate_conditional st (Term.Binary BinOp.LogicalAnd lhs rhs)
        (some tgt) none = CResult.ok stf ∧
      stf.bytecode.insns = st.bytecode.insns ++
        (dl ++ [Instruction.ISZERO, Instruction.PUSHL st.bytecode.nextLabel,
          Instruction.JUMPI] ++
         (dr ++ [Instruction.PUSHL tgt, Instruction.JUMPI]) ++
         [Instruction.JUMPDEST st.bytecode.nextLabel]) ∧
      stf.bytecode.insns.count Instruction.JUMPI =
        st.bytecode.insns.count Instruction.JUMPI +
        dl.count Instruction.JUMPI + dr.count Instruction.JUMPI + 2 ∧
      stf.bytecode.insns.count Instruction.JUMP =
        st.bytecode.insns.count Instruction.JUMP +
        dl.count Instruction.JUMP + dr.count Instruction.JUMP := by
  have e1 : translate_conditional st.fresh.2 lhs none (some st.fresh.1) =
      CResult.ok (((stl.push Instruction.ISZERO).push
        (Instruction.PUSHL st.bytecode.nextLabel)).push Instruction.JUMPI) := by
    rw [conditional_dispatch_other _ _ _ _ hl]
    exact conditional_other_false_target _ _ _ _ htl
  have e2 : translate_conditional (((stl.push Instruction.ISZERO).push
      (Instruction.PUSHL st.bytecode.nextLabel)).push Instruction.JUMPI) rhs
      (some tgt) none =
      CResult.ok ((str.push (Instruction.PUSHL tgt)).push Instruction.JUMPI) := by
    rw [conditional_dispatch_other _ _ _ _ hr]
    exact conditional_other_true_target _ _ _ _ htr
  rw [translate_conditional, translate_conditional_conjunct]
  rw [e1]
  simp only [CResult.bind_ok]
  rw [e2]
  simp only [CResult.bind_ok]
  refine ⟨_, rfl, ?_, ?_, ?_⟩
  · simp [hdr, hdl, List.append_assoc]
  · simp [hdr, hdl, List.count_append]
    omega
  · simp [hdr, hdl, List.count_append]
    omega

theorem to_be_bytes_small (v : Nat) (h1 : 0 < v) (h2 : v < 256) :
    to_be_bytes v = [v] := by
  rw [to_be_bytes, if_neg (by omega), Nat.div_eq_of_lt h2, to_be_bytes_zero,
    Nat.mod_eq_of_lt h2]
  rfl

theorem translate_literal_ok (st : CompilerState) (digits : List Nat) (radix : Nat) :
    translate_literal st digits radix =
      CResult.ok (st.push (Instruction.PUSH (to_be_bytes (from_be_digits digits radix)))) := by
  unfold translate_literal
  rw [make_push_ok _ (from_be_digits_lt digits radix)]

theorem translate_int_ok (st : CompilerState) (digits : List Nat) :
    translate st (Term.Int digits) =
      CResult.ok (st.push (Instruction.PUSH (to_be_bytes (from_be_digits digits 10)))) := by
  rw [translate]
  exact translate_literal_ok st digits 10

/-- Witness for C5: `(1 && 2)` in true-only-target position (target label 7)
from the empty builder compiles to
`PUSH 1; ISZERO; PUSHL 0; JUMPI; PUSH 2; PUSHL 7; JUMPI; JUMPDEST 0` —
the fresh skip label 0, one conditional jump per operand, no unconditional
jump. -/
theorem conjunct_true_target_lowering_witness :
    ∃ stf, translate_conditional (CompilerState.mk (Bytecode.mk [] 0) [])
        (Term.Binary BinOp.LogicalAnd (Term.Int [1]) (Term.Int [2]))
        (some 7) none = CResult.ok stf ∧
      stf.bytecode.insns =
        [Instruction.PUSH [1], Instruction.ISZERO, Instruction.PUSHL 0,
         Instruction.JUMPI, Instruction.PUSH [2], Instruction.PUSHL 7,
         Instruction.JUMPI, Instruction.JUMPDEST 0] := by
  obtain ⟨stf, h1, h2, h3, h4⟩ := conjunct_true_target_lowering
    (CompilerState.mk (Bytecode.mk [] 0) []) (Term.Int [1]) (Term.Int [2]) 7
    trivial trivial [Instruction.PUSH [1]] [Instruction.PUSH [2]]
    (CompilerState.mk (Bytecode.mk [Instruction.PUSH [1]] 1) [])
    (CompilerState.mk (Bytecode.mk [Instruction.PUSH [1], Instruction.ISZERO,
      Instruction.PUSHL 0, Instruction.JUMPI, Instruction.PUSH [2]] 1) [])
    (by rw [translate_int_ok, show from_be_digits [1] 10 = 1 from by decide,
          to_be_bytes_small 1 (by norm_num) (by norm_num)]; rfl)
    rfl
    (by rw [translate_int_ok, show from_be_digits [2] 10 = 2 from by decide,
          to_be_bytes_small 2 (by norm_num) (by norm_num)]; rfl)
    rfl
  exact ⟨stf, h1, by rw [h2]; rfl⟩

-- ============================================================================
-- Claim C6 — operand order of non-logical binary expressions
-- ============================================================================

/-- The operation instruction(s) emitted after the operands of each
non-logical binary operator (the arms of `translate_binary_arithmetic`);
not-equal, ≤ and ≥ are synthesized with a trailing `ISZERO`. -/
def opInsns : BinOp → List Instruction
  | BinOp.Add => [Instruction.ADD]
  | BinOp.Subtract => [Instruction.SUB]
  | BinOp.Divide => [Instruction.DIV]
  | BinOp.Multiply => [Instruction.MUL]
  | BinOp.Remainder => [Instruction.MOD]
  | BinOp.Equals => [Instruction.EQ]
  | BinOp.LessThan => [Instruction.LT]
  | BinOp.GreaterThan => [Instruction.GT]
  | BinOp.NotEquals => [Instruction.EQ, Instruction.ISZERO]
  | BinOp.LessThanOrEquals => [Instruction.GT, Instruction.ISZERO]
  | BinOp.GreaterThanOrEquals => [Instruction.LT, Instruction.ISZERO]
  | BinOp.LogicalAnd => []
  | BinOp.LogicalOr => []

/-- **C6**: for every non-logical binary expression the compiler emits the
right operand's instructions first, then the left operand's, then the
operation's instruction(s): the instruction stream for `Binary bop lhs rhs`
is `code(rhs) ++ code(lhs) ++ opInsns bop`.  In particular `a - b` compiles
to `code(b) ++ code(a) ++ [SUB]`. -/
theorem binary_arithmetic_operand_order
    (st : CompilerState) (bop : BinOp) (lhs rhs : Term)
    (hbop1 : bop ≠ BinOp.LogicalAnd) (hbop2 : bop ≠ BinOp.LogicalOr)
    (dl dr : List Instruction) (str stl : CompilerState)
    (htr : translate st rhs = CResult.ok str)
    (hdr : str.bytecode.insns = st.bytecode.insns ++ dr)
    (htl : translate str lhs = CResult.ok stl)
    (hdl : stl.bytecode.insns = str.bytecode.insns ++ dl) :
    ∃ stf, translate st (Term.Binary bop lhs rhs) = CResult.ok stf ∧
      stf.bytecode.insns = st.bytecode.insns ++ dr ++ dl ++ opInsns bop := by
  have harith : translate st (Term.Binary bop lhs rhs) =
      translate_binary_arithmetic st bop lhs rhs := by
    rw [translate]
    cases bop
    case LogicalAnd => exact absurd rfl hbop1
    case LogicalOr => exact absurd rfl hbop2
    all_goals rw [translate_binary]
    all_goals (intro hh; simp at hh)
  rw [harith, translate_binary_arithmetic, htr]
  simp only [CResult.bind_ok]
  rw [htl]
  simp only [CResult.bind_ok]
  cases bop
  case LogicalAnd => exact absurd rfl hbop1
  case LogicalOr => exact absurd rfl hbop2
  all_goals
    refine ⟨_, rfl, ?_⟩
    simp [hdl, hdr, opInsns, List.append_assoc]

/-- Witness for C6: `1 - 2` (i.e. `a - b` with `a = 1`, `b = 2`) from the
empty builder compiles to `PUSH 2; PUSH 1; SUB` — right operand first. -/
theorem binary_arithmetic_operand_order_witness :
    ∃ stf, translate (CompilerState.mk (Bytecode.mk [] 0) [])
        (Term.Binary BinOp.Subtract (Term.Int [1]) (Term.Int [2])) =
        CResult.ok stf ∧
      stf.bytecode.insns =
        [Instruction.PUSH [2], Instruction.PUSH [1], Instruction.SUB] := by
  obtain ⟨stf, h1, h2⟩ := binary_arithmetic_operand_order
    (CompilerState.mk (Bytecode.mk [] 0) []) BinOp.Subtract
    (Term.Int [1]) (Term.Int [2]) (by simp) (by simp)
    [Instruction.PUSH [1]] [Instruction.PUSH [2]]
    (CompilerState.mk (Bytecode.mk [Instruction.PUSH [2]] 0) [])
    (CompilerState.mk (Bytecode.mk [Instruction.PUSH [2], Instruction.PUSH [1]] 0) [])
    (by rw [translate_int_ok, show from_be_digits [2] 10 = 2 from by decide,
          to_be_bytes_small 2 (by norm_num) (by norm_num)]; rfl)
    rfl
    (by rw [translate_int_ok, show from_be_digits [1] 10 = 1 from by decide,
          to_be_bytes_small 1 (by norm_num) (by norm_num)]; rfl)
    rfl
  exact ⟨stf, h1, by rw [h2]; rfl⟩
